import Mathlib

/-!
Verification of the binary `COPY` framing code of `rust-postgres-binary-copy`
(`src/lib.rs`): a streaming encoder (`BinaryCopyReader`) that turns a row-major
sequence of typed values into the PostgreSQL binary COPY byte stream, and a
streaming decoder (`BinaryCopyWriter`) that parses such a stream and forwards
each field to a value sink.

The embedding below follows the source closely:

* bytes are `Nat`s (each < 256); multi-byte integers are big-endian;
* the external conversion capability (`ToSql::to_sql_checked`) is modelled by
  the value itself: a value is `Option (List Nat)` — `none` is a SQL NULL
  (writes no payload bytes, reports `IsNull::Yes`), `some p` writes exactly
  the payload bytes `p` and reports `IsNull::No`;
* the value sink (`WriteValue`) is modelled as a pure recorder of events
  (`SinkEvent.null` for `write_null_value`, `SinkEvent.value payload` for
  `write_value`); sink calls are collected in order;
* Rust `usize`/`i16`/`i32` arithmetic is `Nat`/`Int` with explicit
  `% 2^w` wrapping where the source can overflow (release-mode semantics);
  Rust panics (slice indexing out of bounds, `%` by zero, index out of
  bounds) are explicit error values;
* fallible operations return `Except`.
-/

namespace PgBinaryCopy

/-! ## Byte-level helpers (big-endian, as written by `byteorder`) -/

/-- Big-endian bytes of the low 16 bits of `n` (what `write_i16::<BigEndian>`
stores for the two's-complement representation). -/
def u16Bytes (n : Nat) : List Nat := [n / 256 % 256, n % 256]

/-- Big-endian bytes of the low 32 bits of `n`. -/
def u32Bytes (n : Nat) : List Nat :=
  [n / 2 ^ 24 % 256, n / 2 ^ 16 % 256, n / 2 ^ 8 % 256, n % 256]

/-- `write_i16::<BigEndian>` of a signed value: two's-complement low 16 bits. -/
def i16Bytes (v : Int) : List Nat := u16Bytes ((v % (2 ^ 16 : Int)).toNat)

/-- `write_i32::<BigEndian>` of a signed value: two's-complement low 32 bits. -/
def i32Bytes (v : Int) : List Nat := u32Bytes ((v % (2 ^ 32 : Int)).toNat)

/-- `read_i16::<BigEndian>` raw 16-bit value from the front of a byte list;
`none` models byteorder's `UnexpectedEof` when fewer than 2 bytes remain. -/
def readU16 : List Nat → Option Nat
  | b0 :: b1 :: _ => some (b0 * 256 + b1)
  | _ => none

/-- `read_i32::<BigEndian>` raw 32-bit value from the front of a byte list;
`none` models byteorder's `UnexpectedEof` when fewer than 4 bytes remain. -/
def readU32 : List Nat → Option Nat
  | b0 :: b1 :: b2 :: b3 :: _ => some (b0 * 2 ^ 24 + b1 * 2 ^ 16 + b2 * 2 ^ 8 + b3)
  | _ => none

/-- Reinterpret a `w`-bit unsigned value as two's-complement signed. -/
def toSigned (u : Nat) (w : Nat) : Int :=
  if u < 2 ^ (w - 1) then (u : Int) else (u : Int) - 2 ^ w

/-- Rust `as usize` on a signed value: two's-complement low 64 bits. -/
def usize64 (v : Int) : Nat := (v % (2 ^ 64 : Int)).toNat

/-- Rust `i16` addition with release-mode wrap-around. -/
def wrapI16 (v : Int) : Int := toSigned ((v % (2 ^ 16 : Int)).toNat) 16

/-- `HEADER_MAGIC`: the 11 bytes of `b"PGCOPY\n\xff\r\n\0"`. -/
def HEADER_MAGIC : List Nat := [0x50, 0x47, 0x43, 0x4F, 0x50, 0x59, 0x0A, 0xFF, 0x0D, 0x0A, 0x00]

/-- `buf.take pos ++ bytes ++ ...`: the effect of `set_position(pos)` followed
by writing `bytes` into a cursor over `buf` (overwriting in place). -/
def overwriteAt (buf : List Nat) (pos : Nat) (bytes : List Nat) : List Nat :=
  buf.take pos ++ bytes ++ buf.drop (pos + bytes.length)

/-! ## The encoder: `BinaryCopyReader` -/

/-- `enum ReadState { Header, Body(usize), Footer }`. -/
inductive ReadState
  | Header
  | Body (idx : Nat)
  | Footer
deriving DecidableEq, Repr

/-- `BinaryCopyReader`.  The column type slice `types` only influences the
framing through its length (`typesLen`) and the bounds check of `types[idx]`;
payload bytes come from the value itself (the external conversion capability).
`it` is the streaming iterator of values; `buf` the staging `Cursor<Vec<u8>>`
contents (the cursor position is 0 after every refill). -/
structure BinaryCopyReader where
  typesLen : Nat
  state : ReadState
  it : List (Option (List Nat))
  buf : List Nat
deriving DecidableEq, Repr

/-- Encoder-side failures.  `limit` is the `"value too large to transmit"`
conversion error (raised both for a too-wide schema and for an oversized
payload); the `panic` constructors model Rust panics: `(old_idx + 1) %
self.types.len()` with an empty type slice, and `self.types[idx]` out of
bounds.  `outOfFuel` is an artifact of the bounded iteration used by
`encodeLoop` and never occurs with sufficient fuel. -/
inductive EncodeError
  | limit
  | panicDivZero
  | panicIndexOOB
  | outOfFuel
deriving DecidableEq, Repr

/-- The `Op` enum local to `fill_buf`. -/
inductive EncOp
  | value (idx : Nat) (v : Option (List Nat))
  | footer
  | nothing
deriving DecidableEq, Repr

/-- `BinaryCopyReader::fill_buf`.  Note that `self.it.next()` is evaluated
unconditionally (it is part of the match scrutinee tuple), so the iterator
advances even in the `Footer` state.  The staging buffer is cleared and then
holds exactly the unit produced by this refill. -/
def fill_buf (r : BinaryCopyReader) : Except EncodeError BinaryCopyReader :=
  let step : Except EncodeError (EncOp × ReadState) :=
    match r.state, r.it.head? with
    | .Header, some v => .ok (.value 0 v, .Body 0)
    | .Body old, some v =>
      if r.typesLen = 0 then
        .error .panicDivZero
      else
        .ok (.value ((old + 1) % r.typesLen) v, .Body ((old + 1) % r.typesLen))
    | .Header, none => .ok (.footer, .Footer)
    | .Body _, none => .ok (.footer, .Footer)
    | .Footer, _ => .ok (.nothing, .Footer)
  match step with
  | .error e => .error e
  | .ok (op, st) =>
    match op with
    | .value idx v =>
      let countBytes : Except EncodeError (List Nat) :=
        if idx = 0 then
          if r.typesLen > 32767 then .error .limit else .ok (u16Bytes r.typesLen)
        else .ok []
      match countBytes with
      | .error e => .error e
      | .ok cnt =>
        if idx < r.typesLen then
          match v with
          | none =>
            let buf1 := cnt ++ u32Bytes 0
            .ok { r with state := st, it := r.it.tail,
                         buf := overwriteAt buf1 cnt.length (i32Bytes (-1)) }
          | some p =>
            if p.length > 2 ^ 31 - 1 then .error .limit
            else
              let buf1 := cnt ++ u32Bytes 0 ++ p
              .ok { r with state := st, it := r.it.tail,
                           buf := overwriteAt buf1 cnt.length (i32Bytes p.length) }
        else .error .panicIndexOOB
    | .footer => .ok { r with state := st, it := r.it.tail, buf := i16Bytes (-1) }
    | .nothing => .ok { r with state := st, it := r.it.tail, buf := [] }

/-- The `(state, iterator)` view that determines which field index (if any)
the next refill will process: `Header` pulls at index 0, `Body old` at
`(old + 1) % typesLen`, `Footer` pulls nothing.  (This mirrors the match at
the top of `fill_buf`.) -/
def nextIdx (r : BinaryCopyReader) : Option Nat :=
  match r.state with
  | .Header => some 0
  | .Body old => some ((old + 1) % r.typesLen)
  | .Footer => none

/-- The pre-loaded staging buffer built by `BinaryCopyReader::new`: magic,
zero flags word, zero header-extension length. -/
def headerPreload : List Nat := HEADER_MAGIC ++ i32Bytes 0 ++ i32Bytes 0

/-- `BinaryCopyReader::new`. -/
def newReader (typesLen : Nat) (values : List (Option (List Nat))) : BinaryCopyReader :=
  { typesLen := typesLen, state := .Header, it := values, buf := headerPreload }

/-- The drain loop of `read_with_info`: once the staging buffer is exhausted,
`fill_buf` is called; an empty refill is end of stream.  `encodeLoop` collects
the successive refill units. -/
def encodeLoop : BinaryCopyReader → Nat → Except EncodeError (List Nat)
  | _, 0 => .error .outOfFuel
  | r, fuel + 1 =>
    match fill_buf r with
    | .error e => .error e
    | .ok r' =>
      if r'.buf = [] then .ok []
      else
        match encodeLoop r' fuel with
        | .error e => .error e
        | .ok rest => .ok (r'.buf ++ rest)

/-- The complete byte stream produced by driving `read_with_info` to end of
stream: the pre-loaded header followed by every refill unit.  One value is
consumed per refill, then one refill emits the footer and one more returns
empty, so `values.length + 2` refills always suffice. -/
def encode (typesLen : Nat) (values : List (Option (List Nat))) :
    Except EncodeError (List Nat) :=
  match encodeLoop (newReader typesLen values) (values.length + 2) with
  | .error e => .error e
  | .ok body => .ok (headerPreload ++ body)

/-! ## The decoder: `BinaryCopyWriter` -/

/-- `enum WriteState`. -/
inductive WriteState
  | AtHeader
  | AtTuple
  | AtFieldSize (remaining : Nat)
  | AtField (size : Nat) (remaining : Nat)
  | Done
deriving DecidableEq, Repr

/-- One sink invocation: `write_null_value` or `write_value` with the payload
bytes the `WriteValueReader` exposes. -/
inductive SinkEvent
  | null
  | value (payload : List Nat)
deriving DecidableEq, Repr

/-- Decoder-side failures.  `formatBadHeader` is `"Did not receive expected
header"`, `formatBadFlags` is `"Critical file format issue"`, `formatAfterEnd`
is `"Unexpected input after stream end"`; `unexpectedEof` models byteorder's
error when `read_i16`/`read_i32` meets a slice that is too short, and
`panicSliceOOB` the Rust panic of `&self.buf[..HEADER_MAGIC.len()]` on a
buffer shorter than the magic.  `outOfFuel` is an artifact of the bounded
driver loop `driveAll`. -/
inductive DecodeError
  | formatBadHeader
  | formatBadFlags
  | formatAfterEnd
  | unexpectedEof
  | panicSliceOOB
  | outOfFuel
deriving DecidableEq, Repr

/-- `BinaryCopyWriter`: parse state, the OID flag recorded from the header,
and the staging buffer accumulating the current unit. -/
structure BinaryCopyWriter where
  state : WriteState
  has_oids : Bool
  buf : List Nat
deriving DecidableEq, Repr

/-- `BinaryCopyWriter::new`. -/
def newWriter : BinaryCopyWriter := ⟨.AtHeader, false, []⟩

deriving instance DecidableEq for Except

/-- `BinaryCopyWriter::read_to`: append `min(size - buf.len(), chunk.len())`
bytes of the chunk to the staging buffer.  `Vec::write` always appends the
whole slice and returns its length, so `nread == to_read` — the first
component of the result — is always `true` (this mirrors the source
faithfully; see the C3 analysis). -/
def read_to (acc chunk : List Nat) (size : Nat) : Bool × Nat × List Nat :=
  let to_read := min (size - acc.length) chunk.length
  let nread := to_read
  (nread == to_read, nread, acc ++ chunk.take to_read)

/-- The result type of one `write_with_info` call: updated writer, number of
input bytes consumed, and the sink events emitted during the call. -/
abbrev DecodeStep := Except DecodeError (BinaryCopyWriter × Nat × List SinkEvent)

/-- `BinaryCopyWriter::read_header`.  The flags word is read from the 4 bytes
after the magic; bit 16 sets `has_oids`; `flags & (!0 << 17)` — bits 17..31,
the mask `0xFFFE0000 = 4294836224` — must be zero.  The 4 header-extension
bytes are never inspected. -/
def read_header (w : BinaryCopyWriter) (chunk : List Nat) : DecodeStep :=
  let header_size := HEADER_MAGIC.length + 8
  let res := read_to w.buf chunk header_size
  if !res.1 then .ok ({ w with buf := res.2.2 }, res.2.1, [])
  else if res.2.2.length < HEADER_MAGIC.length then .error .panicSliceOOB
  else if res.2.2.take HEADER_MAGIC.length ≠ HEADER_MAGIC then .error .formatBadHeader
  else
    match readU32 (res.2.2.drop HEADER_MAGIC.length) with
    | none => .error .unexpectedEof
    | some flags =>
      if flags &&& 4294836224 ≠ 0 then .error .formatBadFlags
      else .ok (⟨.AtTuple, (flags &&& 65536) != 0, []⟩, res.2.1, [])

/-- `BinaryCopyWriter::read_tuple`.  A field count of `-1` is the footer; any
other count is bumped by one when OIDs are present (`i16` increment, wrapping
in release mode) and converted `as usize`. -/
def read_tuple (w : BinaryCopyWriter) (chunk : List Nat) : DecodeStep :=
  let res := read_to w.buf chunk 2
  if !res.1 then .ok ({ w with buf := res.2.2 }, res.2.1, [])
  else
    match readU16 res.2.2 with
    | none => .error .unexpectedEof
    | some u =>
      let tuple_size := toSigned u 16
      if tuple_size = -1 then .ok ({ w with state := .Done, buf := [] }, res.2.1, [])
      else
        let tuple_size := if w.has_oids then wrapI16 (tuple_size + 1) else tuple_size
        .ok ({ w with state := .AtFieldSize (usize64 tuple_size), buf := [] }, res.2.1, [])

/-- `BinaryCopyWriter::advance_field_state`.  `remaining - 1` is `usize`
subtraction: at `remaining = 0` it underflows (release-mode wrap to
`2^64 - 1`), made explicit here. -/
def advance_field_state (remaining : Nat) : WriteState :=
  if remaining = 1 then .AtTuple
  else .AtFieldSize ((remaining + (2 ^ 64 - 1)) % 2 ^ 64)

/-- `BinaryCopyWriter::read_field_size`.  A length of `-1` is a null field:
the sink's null path runs immediately and the field counter advances; any
other length is converted `as usize` and stored in `AtField`. -/
def read_field_size (w : BinaryCopyWriter) (chunk : List Nat) (remaining : Nat) : DecodeStep :=
  let res := read_to w.buf chunk 4
  if !res.1 then .ok ({ w with buf := res.2.2 }, res.2.1, [])
  else
    match readU32 res.2.2 with
    | none => .error .unexpectedEof
    | some u =>
      let field_size := toSigned u 32
      if field_size = -1 then
        .ok ({ w with state := advance_field_state remaining, buf := [] }, res.2.1, [.null])
      else
        .ok ({ w with state := .AtField (usize64 field_size) remaining, buf := [] },
             res.2.1, [])

/-- `BinaryCopyWriter::read_field`: accumulate the payload, hand it to the
sink's value path, clear the buffer and advance the field counter. -/
def read_field (w : BinaryCopyWriter) (chunk : List Nat) (size remaining : Nat) : DecodeStep :=
  let res := read_to w.buf chunk size
  if !res.1 then .ok ({ w with buf := res.2.2 }, res.2.1, [])
  else
    .ok ({ w with state := advance_field_state remaining, buf := [] }, res.2.1,
         [.value res.2.2])

/-- `WriteWithInfo::write_with_info` for `BinaryCopyWriter`: dispatch on the
current state; in `Done`, any further input is a protocol error. -/
def write_with_info (w : BinaryCopyWriter) (chunk : List Nat) : DecodeStep :=
  match w.state with
  | .AtHeader => read_header w chunk
  | .AtTuple => read_tuple w chunk
  | .AtFieldSize remaining => read_field_size w chunk remaining
  | .AtField size remaining => read_field w chunk size remaining
  | .Done => .error .formatAfterEnd

/-- The external push loop driving the decoder: call `write_with_info` with
all not-yet-consumed bytes, drop what it consumed, repeat until the input is
exhausted.  Events of all calls are concatenated in order.  `fuel` bounds the
number of calls (`outOfFuel` never occurs with sufficient fuel). -/
def driveAll : BinaryCopyWriter → List Nat → Nat →
    Except DecodeError (BinaryCopyWriter × List SinkEvent)
  | _, _, 0 => .error .outOfFuel
  | w, input, fuel + 1 =>
    if input = [] then .ok (w, [])
    else
      match write_with_info w input with
      | .error e => .error e
      | .ok (w', n, evs) =>
        match driveAll w' (input.drop n) fuel with
        | .error e => .error e
        | .ok (w2, evs2) => .ok (w2, evs ++ evs2)

/-! ## Wire-format description (what the framing should produce/consume) -/

/-- The wire encoding of one field: length prefix `-1` for null, otherwise
the payload length followed by the payload. -/
def fieldBytes : Option (List Nat) → List Nat
  | none => i32Bytes (-1)
  | some p => i32Bytes p.length ++ p

/-- Concatenated wire encodings of a list of fields. -/
def fieldsBytes : List (Option (List Nat)) → List Nat
  | [] => []
  | f :: fs => fieldBytes f ++ fieldsBytes fs

/-- The sink event each field should produce. -/
def sinkEventOf : Option (List Nat) → SinkEvent
  | none => .null
  | some p => .value p

/-- The sink events of a list of fields, in order. -/
def fieldEvents (fs : List (Option (List Nat))) : List SinkEvent := fs.map sinkEventOf

/-- Decoder calls needed for a list of fields: one for a null field, two
(length, then payload) for a non-null field. -/
def fieldsFuel : List (Option (List Nat)) → Nat
  | [] => 0
  | none :: fs => 1 + fieldsFuel fs
  | some _ :: fs => 2 + fieldsFuel fs

/-- The wire encoding of one tuple over `L` columns: field count then fields. -/
def rowBytes (L : Nat) (row : List (Option (List Nat))) : List Nat :=
  u16Bytes L ++ fieldsBytes row

/-- The wire encoding of a sequence of tuples. -/
def rowsBytes (L : Nat) : List (List (Option (List Nat))) → List Nat
  | [] => []
  | row :: rows => rowBytes L row ++ rowsBytes L rows

/-- Decoder calls needed for a sequence of tuples. -/
def rowsFuel : List (List (Option (List Nat))) → Nat
  | [] => 0
  | row :: rows => 1 + fieldsFuel row + rowsFuel rows

/-- Row-major flattening of a list of rows into the value sequence. -/
def flattenRows : List (List (Option (List Nat))) → List (Option (List Nat))
  | [] => []
  | r :: rs => r ++ flattenRows rs

/-! ## Byte-level lemmas -/

theorem u16Bytes_length (n : Nat) : (u16Bytes n).length = 2 := rfl

theorem u32Bytes_length (n : Nat) : (u32Bytes n).length = 4 := rfl

theorem i16Bytes_neg_one : i16Bytes (-1) = [255, 255] := rfl

theorem i32Bytes_neg_one : i32Bytes (-1) = [255, 255, 255, 255] := rfl

theorem i32Bytes_ofNat (n : Nat) (h : n < 2 ^ 32) : i32Bytes (n : Int) = u32Bytes n := by
  unfold i32Bytes
  congr 1
  omega

theorem i32Bytes_length (v : Int) : (i32Bytes v).length = 4 := rfl

theorem readU16_u16Bytes (n : Nat) (h : n < 2 ^ 16) (rest : List Nat) :
    readU16 (u16Bytes n ++ rest) = some n := by
  simp only [u16Bytes, List.cons_append, List.nil_append, readU16]
  congr 1
  omega

theorem readU32_u32Bytes (n : Nat) (h : n < 2 ^ 32) (rest : List Nat) :
    readU32 (u32Bytes n ++ rest) = some n := by
  simp only [u32Bytes, List.cons_append, List.nil_append, readU32]
  congr 1
  omega

theorem toSigned_small (u : Nat) (h : u < 2 ^ 15) : toSigned u 16 = (u : Int) := by
  simp only [toSigned, show (16 : Nat) - 1 = 15 from rfl]
  rw [if_pos h]

theorem toSigned32_small (u : Nat) (h : u < 2 ^ 31) : toSigned u 32 = (u : Int) := by
  simp only [toSigned, show (32 : Nat) - 1 = 31 from rfl]
  rw [if_pos h]

theorem usize64_ofNat (n : Nat) (h : n < 2 ^ 64) : usize64 (n : Int) = n := by
  simp only [usize64]
  omega

theorem fieldBytes_ne_nil (v : Option (List Nat)) : fieldBytes v ≠ [] := by
  cases v <;> simp [fieldBytes, i32Bytes, u32Bytes]

theorem overwriteAt_append (a mid p bytes : List Nat) (h : mid.length = bytes.length) :
    overwriteAt (a ++ mid ++ p) a.length bytes = a ++ bytes ++ p := by
  unfold overwriteAt
  have h2 : (a ++ mid).length = a.length + bytes.length := by simp [h]
  have h3 : (a ++ mid ++ p).take a.length = a := by
    rw [List.append_assoc a mid p, List.take_left]
  rw [List.drop_left' h2, h3]

/-! ## `read_to` lemmas -/

/-- The completion flag of `read_to` is always `true`: `Vec::write` appends
the whole slice, so `nread == to_read` holds unconditionally and the
"unit not yet complete" early return in every `read_*` handler is
unreachable. -/
theorem read_to_done (acc chunk : List Nat) (size : Nat) :
    (read_to acc chunk size).1 = true := by
  simp [read_to]

/-- `read_to` on an empty staging buffer whose chunk starts with a complete
unit `u`: the unit is taken, `size` bytes are consumed. -/
theorem read_to_exact (u rest : List Nat) (size : Nat) (h : u.length = size) :
    read_to [] (u ++ rest) size = (true, size, u) := by
  have hmin : min (size - ([] : List Nat).length) (u ++ rest).length = size := by
    simp [List.length_append, h]
  simp only [read_to, hmin]
  rw [List.take_left' h]
  simp

theorem overwriteAt_append2 (a mid bytes : List Nat) (h : mid.length = bytes.length) :
    overwriteAt (a ++ mid) a.length bytes = a ++ bytes := by
  have h0 := overwriteAt_append a mid [] bytes h
  simpa using h0

theorem overwriteAt_eq (a mid p bytes : List Nat) (pos : Nat)
    (hpos : pos = a.length) (h : mid.length = bytes.length) :
    overwriteAt (a ++ mid ++ p) pos bytes = a ++ bytes ++ p := by
  subst hpos
  exact overwriteAt_append a mid p bytes h

theorem overwriteAt_eq2 (a mid bytes : List Nat) (pos : Nat)
    (hpos : pos = a.length) (h : mid.length = bytes.length) :
    overwriteAt (a ++ mid) pos bytes = a ++ bytes := by
  subst hpos
  exact overwriteAt_append2 a mid bytes h

theorem overwriteAt_zero (mid p bytes : List Nat) (h : mid.length = bytes.length) :
    overwriteAt (mid ++ p) 0 bytes = bytes ++ p := by
  have h0 := overwriteAt_append [] mid p bytes h
  simpa using h0

theorem overwriteAt_zero2 (mid bytes : List Nat) (h : mid.length = bytes.length) :
    overwriteAt mid 0 bytes = bytes := by
  have h0 := overwriteAt_append2 [] mid bytes h
  simpa using h0

theorem overwriteAt_eq_assoc (a mid p bytes : List Nat) (pos : Nat)
    (hpos : pos = a.length) (h : mid.length = bytes.length) :
    overwriteAt (a ++ (mid ++ p)) pos bytes = a ++ (bytes ++ p) := by
  subst hpos
  rw [← List.append_assoc, ← List.append_assoc]
  exact overwriteAt_append a mid p bytes h

theorem except_map_map {ε α β γ : Type} (f : α → β) (g : β → γ) (x : Except ε α) :
    (x.map f).map g = x.map (fun a => g (f a)) := by
  cases x <;> rfl

/-! ## Encoder step lemmas -/

/-- One refill that pulls value `v` at field index `idx`: the staging buffer
becomes the optional tuple field count followed by the field's wire bytes,
the state records `Body idx`, the iterator advances. -/
theorem fill_buf_value (L : Nat) (st : ReadState) (idx : Nat) (v : Option (List Nat))
    (vs : List (Option (List Nat))) (b : List Nat)
    (hL2 : idx = 0 → L ≤ 32767)
    (hidx : (st = .Header ∧ idx = 0) ∨ ∃ old, st = .Body old ∧ idx = (old + 1) % L)
    (hidxL : idx < L)
    (hp : ∀ p, v = some p → p.length < 2 ^ 31) :
    fill_buf ⟨L, st, v :: vs, b⟩ =
      .ok ⟨L, .Body idx, vs, (if idx = 0 then u16Bytes L else []) ++ fieldBytes v⟩ := by
  have hL0 : L ≠ 0 := by omega
  rcases hidx with ⟨hst, hidx0⟩ | ⟨old, hst, hidxm⟩
  · subst hst; subst hidx0
    have hA : ¬L > 32767 := by have := hL2 rfl; omega
    cases v with
    | none =>
      simp [fill_buf, hA, hidxL, fieldBytes, overwriteAt_eq2, u16Bytes_length,
        u32Bytes_length, i32Bytes_length]
    | some p =>
      have hpl := hp p rfl
      have hplen : (2 ^ 31 - 1 < p.length) = False := eq_false (by omega)
      simp [fill_buf, hA, hidxL, hplen, fieldBytes, overwriteAt_eq_assoc, u16Bytes_length,
        u32Bytes_length, i32Bytes_length]
      omega
  · subst hst; subst hidxm
    have hL0' : 0 < L := by omega
    by_cases h0 : (old + 1) % L = 0
    · have hA : ¬L > 32767 := by have := hL2 h0; omega
      cases v with
      | none =>
        simp [fill_buf, hL0, hA, hL0', h0, fieldBytes, overwriteAt_eq2, u16Bytes_length,
          u32Bytes_length, i32Bytes_length]
      | some p =>
        have hpl := hp p rfl
        have hplen : (2 ^ 31 - 1 < p.length) = False := eq_false (by omega)
        simp [fill_buf, hL0, hA, hL0', h0, hplen, fieldBytes, overwriteAt_eq_assoc,
          u16Bytes_length, u32Bytes_length, i32Bytes_length]
        omega
    · cases v with
      | none =>
        simp [fill_buf, hL0, hidxL, h0, fieldBytes, overwriteAt_zero2, u32Bytes_length,
          i32Bytes_length]
      | some p =>
        have hpl := hp p rfl
        have hplen : (2 ^ 31 - 1 < p.length) = False := eq_false (by omega)
        simp [fill_buf, hL0, hidxL, h0, hplen, fieldBytes, overwriteAt_zero,
          u32Bytes_length, i32Bytes_length]
        omega

/-- A refill with the value source exhausted emits the footer. -/
theorem fill_buf_footer (L : Nat) (st : ReadState) (b : List Nat)
    (hst : st = .Header ∨ ∃ old, st = .Body old) :
    fill_buf ⟨L, st, [], b⟩ = .ok ⟨L, .Footer, [], i16Bytes (-1)⟩ := by
  rcases hst with hst | ⟨old, hst⟩ <;> subst hst <;> rfl

/-- A refill in the `Footer` state produces nothing (end of stream), but the
iterator is still advanced (`self.it.next()` is part of the match scrutinee). -/
theorem fill_buf_nothing (L : Nat) (it : List (Option (List Nat))) (b : List Nat) :
    fill_buf ⟨L, .Footer, it, b⟩ = .ok ⟨L, .Footer, it.tail, []⟩ := by
  cases it <;> rfl

/-- `fill_buf` never reads the staging buffer it is about to overwrite. -/
theorem fill_buf_congr_buf (L : Nat) (st : ReadState) (it : List (Option (List Nat)))
    (b1 b2 : List Nat) :
    fill_buf ⟨L, st, it, b1⟩ = fill_buf ⟨L, st, it, b2⟩ := by
  cases st <;> cases it <;> rfl

theorem encodeLoop_congr_buf (L : Nat) (st : ReadState) (it : List (Option (List Nat)))
    (b1 b2 : List Nat) (fuel : Nat) :
    encodeLoop ⟨L, st, it, b1⟩ fuel = encodeLoop ⟨L, st, it, b2⟩ fuel := by
  cases fuel with
  | zero => rfl
  | succ n =>
    simp only [encodeLoop]
    rw [fill_buf_congr_buf L st it b1 b2]

/-- Unfolding one successful, non-empty refill of the encoder drain loop. -/
theorem encodeLoop_step (r r' : BinaryCopyReader) (fuel : Nat)
    (h : fill_buf r = .ok r') (hb : r'.buf ≠ []) :
    encodeLoop r (fuel + 1) = (encodeLoop r' fuel).map (r'.buf ++ ·) := by
  simp only [encodeLoop, h, if_neg hb]
  cases encodeLoop r' fuel <;> rfl

/-! ## Encoder composition: the full stream -/

/-- The remaining fields of one row: with `i + 1 + fs.length = L`, the encoder
in state `Body i` emits the wire bytes of `fs` (no tuple field count, since
the indices stay non-zero) and lands in `Body (L - 1)`. -/
theorem encodeLoop_fields (L : Nat) (hL2 : L ≤ 32767)
    (fs : List (Option (List Nat))) :
    ∀ (i : Nat) (rest : List (Option (List Nat))) (b : List Nat) (fuel : Nat),
      i + 1 + fs.length = L →
      (∀ p, some p ∈ fs → p.length < 2 ^ 31) →
      encodeLoop ⟨L, .Body i, fs ++ rest, b⟩ (fs.length + fuel) =
        (encodeLoop ⟨L, .Body (L - 1), rest, b⟩ fuel).map (fieldsBytes fs ++ ·) := by
  induction fs with
  | nil =>
    intro i rest b fuel hi hp
    simp only [List.length_nil] at hi
    have hi' : i = L - 1 := by omega
    subst hi'
    simp only [List.length_nil, Nat.zero_add, List.nil_append, fieldsBytes]
    cases encodeLoop ⟨L, .Body (L - 1), rest, b⟩ fuel <;> simp [Except.map]
  | cons v fs ih =>
    intro i rest b fuel hi hp
    simp only [List.length_cons] at hi
    have hidxm : i + 1 = (i + 1) % L := (Nat.mod_eq_of_lt (by omega)).symm
    have hstep := fill_buf_value L (.Body i) (i + 1) v (fs ++ rest) b (fun _ => hL2)
      (Or.inr ⟨i, rfl, hidxm⟩) (by omega)
      (fun p hp' => hp p (by simp [hp']))
    have hne : ¬(i + 1 = 0) := by omega
    rw [if_neg hne, List.nil_append] at hstep
    rw [List.cons_append]
    have hfuel : (v :: fs).length + fuel = (fs.length + fuel) + 1 := by
      simp [Nat.add_comm, Nat.add_assoc, Nat.add_left_comm]
    rw [hfuel, encodeLoop_step _ _ (fs.length + fuel) hstep (fieldBytes_ne_nil v)]
    rw [ih (i + 1) rest (fieldBytes v) fuel (by omega) (fun p hp' => hp p (by simp [hp']))]
    rw [encodeLoop_congr_buf L (.Body (L - 1)) rest (fieldBytes v) b fuel]
    rw [except_map_map]
    simp [fieldsBytes, List.append_assoc]

/-- After the footer refill, one more refill produces nothing: end of stream. -/
theorem encodeLoop_footer_end (L : Nat) (st : ReadState) (b : List Nat)
    (hst : st = .Header ∨ ∃ old, st = .Body old) :
    encodeLoop ⟨L, st, [], b⟩ 2 = .ok (i16Bytes (-1)) := by
  have h1 := fill_buf_footer L st b hst
  have h2 := fill_buf_nothing L ([] : List (Option (List Nat))) (i16Bytes (-1))
  rw [show (2 : Nat) = 1 + 1 from rfl,
    encodeLoop_step ⟨L, st, [], b⟩ ⟨L, .Footer, [], i16Bytes (-1)⟩ 1 h1 (by simp [i16Bytes, u16Bytes])]
  rw [show (1 : Nat) = 0 + 1 from rfl]
  simp only [encodeLoop, h2]
  rfl

/-- The encoder, started at a row boundary, emits the wire bytes of all rows
followed by the footer, using exactly one refill per value plus two. -/
theorem encodeLoop_rows (L : Nat) (hL1 : 1 ≤ L) (hL2 : L ≤ 32767)
    (rows : List (List (Option (List Nat)))) :
    ∀ (st : ReadState) (b : List Nat),
      (∀ r, r ∈ rows → r.length = L) →
      (∀ p, some p ∈ flattenRows rows → p.length < 2 ^ 31) →
      (st = .Header ∨ st = .Body (L - 1)) →
      encodeLoop ⟨L, st, flattenRows rows, b⟩ ((flattenRows rows).length + 2) =
        .ok (rowsBytes L rows ++ i16Bytes (-1)) := by
  induction rows with
  | nil =>
    intro st b _ _ hst
    simp only [flattenRows, List.length_nil, Nat.zero_add, rowsBytes, List.nil_append]
    exact encodeLoop_footer_end L st b (hst.imp id (fun h => ⟨L - 1, h⟩))
  | cons row rows ih =>
    intro st b hlen hp hst
    have hrowlen : row.length = L := hlen row (by simp)
    cases row with
    | nil => simp at hrowlen; omega
    | cons v fstail =>
      simp only [List.length_cons] at hrowlen
      have hidx : (st = ReadState.Header ∧ 0 = 0) ∨
          ∃ old, st = ReadState.Body old ∧ 0 = (old + 1) % L := by
        rcases hst with hst | hst
        · exact Or.inl ⟨hst, rfl⟩
        · refine Or.inr ⟨L - 1, hst, ?_⟩
          rw [Nat.sub_add_cancel hL1, Nat.mod_self]
      have hstep := fill_buf_value L st 0 v (fstail ++ flattenRows rows) b (fun _ => hL2)
        hidx (by omega) (fun p hp' => hp p (by simp [flattenRows, hp']))
      rw [if_pos rfl] at hstep
      simp only [flattenRows, List.cons_append, List.length_cons, List.length_append]
      have hfuel : fstail.length + (flattenRows rows).length + 1 + 2 =
          (fstail.length + ((flattenRows rows).length + 2)) + 1 := by omega
      rw [hfuel, encodeLoop_step _ _ _ hstep (by
        simp only [ne_eq, List.append_eq_nil]
        intro ⟨h1, _⟩
        exact absurd h1 (by simp [u16Bytes]))]
      rw [encodeLoop_fields L hL2 fstail 0 (flattenRows rows)
        (u16Bytes L ++ fieldBytes v) ((flattenRows rows).length + 2) (by omega)
        (fun p hp' => hp p (by simp [flattenRows, hp']))]
      rw [encodeLoop_congr_buf L (.Body (L - 1)) (flattenRows rows)
        (u16Bytes L ++ fieldBytes v) b]
      rw [ih (.Body (L - 1)) b (fun r hr => hlen r (by simp [hr]))
        (fun p hp' => hp p (by simp [flattenRows, hp'])) (Or.inr rfl)]
      simp [Except.map, rowsBytes, rowBytes, fieldsBytes, List.append_assoc]

/-- `encode` of a whole-row value sequence: header, tuples, footer. -/
theorem encode_eq (L : Nat) (hL1 : 1 ≤ L) (hL2 : L ≤ 32767)
    (rows : List (List (Option (List Nat))))
    (hlen : ∀ r, r ∈ rows → r.length = L)
    (hp : ∀ p, some p ∈ flattenRows rows → p.length < 2 ^ 31) :
    encode L (flattenRows rows) =
      .ok (headerPreload ++ (rowsBytes L rows ++ i16Bytes (-1))) := by
  unfold encode newReader
  rw [encodeLoop_rows L hL1 hL2 rows .Header headerPreload hlen hp (Or.inl rfl)]

/-! ## Decoder step lemmas -/

theorem i32Bytes_neg_one_u32 : i32Bytes (-1) = u32Bytes 4294967295 := by decide

theorem i16Bytes_neg_one_u16 : i16Bytes (-1) = u16Bytes 65535 := by decide

theorem toSigned32_neg_one : toSigned 4294967295 32 = -1 := by decide

theorem toSigned16_neg_one : toSigned 65535 16 = -1 := by decide

/-- Parsing a valid-magic header whose flags word is `u`: the call fails with
the critical-format error exactly when one of the bits 17..31 of `u` is set;
otherwise it consumes the 19 header bytes, records `has_oids` from bit 16 and
moves to `AtTuple`.  Bits 0..15 are never inspected. -/
theorem read_header_spec (u e : Nat) (b : Bool) (rest : List Nat)
    (hu : u < 2 ^ 32) :
    write_with_info ⟨.AtHeader, b, []⟩ (HEADER_MAGIC ++ u32Bytes u ++ u32Bytes e ++ rest) =
      if u &&& 4294836224 ≠ 0 then .error .formatBadFlags
      else .ok (⟨.AtTuple, (u &&& 65536) != 0, []⟩, 19, []) := by
  have hlen : (HEADER_MAGIC ++ u32Bytes u ++ u32Bytes e).length = 19 := by
    simp [HEADER_MAGIC, u32Bytes]
  have h1 : read_to [] ((HEADER_MAGIC ++ u32Bytes u ++ u32Bytes e) ++ rest) 19 =
      (true, 19, HEADER_MAGIC ++ u32Bytes u ++ u32Bytes e) := read_to_exact _ _ _ hlen
  have hassoc : HEADER_MAGIC ++ u32Bytes u ++ u32Bytes e ++ rest =
      (HEADER_MAGIC ++ u32Bytes u ++ u32Bytes e) ++ rest := by
    simp [List.append_assoc]
  have htake : (HEADER_MAGIC ++ u32Bytes u ++ u32Bytes e).take 11 = HEADER_MAGIC := by
    rw [List.append_assoc, List.take_left' (by decide)]
  have hdrop : (HEADER_MAGIC ++ u32Bytes u ++ u32Bytes e).drop 11 =
      u32Bytes u ++ u32Bytes e := by
    rw [List.append_assoc, List.drop_left' (by decide)]
  have hread : readU32 (u32Bytes u ++ u32Bytes e) = some u := readU32_u32Bytes u hu _
  simp only [write_with_info, read_header, hassoc]
  simp only [show HEADER_MAGIC.length + 8 = 19 from rfl, h1, Bool.not_true,
    Bool.false_eq_true, if_false, hlen, show HEADER_MAGIC.length = 11 from rfl,
    htake, hdrop, hread]
  rw [if_neg (by omega), if_neg (by simp)]

/-- Reading a tuple field count `n` (with `0 ≤ n ≤ 32767`, and `n < 32767`
when OIDs are present so that the `i16` increment cannot overflow): the
decoder consumes 2 bytes and awaits `n` (plus one for the OID field) field
lengths. -/
theorem read_tuple_count (n : Nat) (o : Bool) (rest : List Nat)
    (hn : n ≤ 32767) (ho : o = true → n < 32767) :
    write_with_info ⟨.AtTuple, o, []⟩ (u16Bytes n ++ rest) =
      .ok (⟨.AtFieldSize (if o then n + 1 else n), o, []⟩, 2, []) := by
  have h1 : read_to [] (u16Bytes n ++ rest) 2 = (true, 2, u16Bytes n) :=
    read_to_exact _ _ _ (u16Bytes_length n)
  have hread : readU16 (u16Bytes n ++ []) = some n := readU16_u16Bytes n (by omega) []
  simp only [List.append_nil] at hread
  have hsig : toSigned n 16 = (n : Int) := toSigned_small n (by omega)
  simp only [write_with_info, read_tuple, h1, Bool.not_true, Bool.false_eq_true,
    if_false, hread, hsig]
  rw [if_neg (by omega : ¬(n : Int) = -1)]
  cases o with
  | false =>
    simp only [Bool.false_eq_true, if_false, usize64_ofNat n (by omega)]
  | true =>
    have hn' : n < 32767 := ho rfl
    have hw : wrapI16 ((n : Int) + 1) = ((n + 1 : Nat) : Int) := by
      unfold wrapI16
      have : (((n : Int) + 1) % (2 ^ 16 : Int)).toNat = n + 1 := by omega
      rw [this]
      exact toSigned_small (n + 1) (by omega)
    simp only [if_true, hw, usize64_ofNat (n + 1) (by omega)]

/-- Reading the footer marker `-1` as tuple field count: terminal state. -/
theorem read_tuple_footer (o : Bool) (rest : List Nat) :
    write_with_info ⟨.AtTuple, o, []⟩ (i16Bytes (-1) ++ rest) =
      .ok (⟨.Done, o, []⟩, 2, []) := by
  have h1 : read_to [] (i16Bytes (-1) ++ rest) 2 = (true, 2, i16Bytes (-1)) :=
    read_to_exact _ _ _ rfl
  have hread : readU16 (u16Bytes 65535 ++ []) = some 65535 :=
    readU16_u16Bytes 65535 (by omega) []
  simp only [List.append_nil] at hread
  rw [i16Bytes_neg_one_u16] at h1
  simp only [write_with_info, read_tuple, i16Bytes_neg_one_u16, h1, Bool.not_true,
    Bool.false_eq_true, if_false, hread, toSigned16_neg_one, if_pos rfl, if_true]

/-- A null field length (`-1`): the sink's null path runs, 4 bytes are
consumed, no payload follows, and the field counter advances. -/
theorem write_field_size_null (r : Nat) (o : Bool) (rest : List Nat) :
    write_with_info ⟨.AtFieldSize r, o, []⟩ (i32Bytes (-1) ++ rest) =
      .ok (⟨advance_field_state r, o, []⟩, 4, [.null]) := by
  have h1 : read_to [] (i32Bytes (-1) ++ rest) 4 = (true, 4, i32Bytes (-1)) :=
    read_to_exact _ _ _ rfl
  have hread : readU32 (u32Bytes 4294967295 ++ []) = some 4294967295 :=
    readU32_u32Bytes 4294967295 (by omega) []
  simp only [List.append_nil] at hread
  rw [i32Bytes_neg_one_u32] at h1
  simp only [write_with_info, read_field_size, i32Bytes_neg_one_u32, h1, Bool.not_true,
    Bool.false_eq_true, if_false, hread, toSigned32_neg_one, if_pos rfl, if_true]

/-- A non-null field length `s < 2^31`: 4 bytes consumed, no sink call yet,
the decoder now awaits exactly `s` payload bytes. -/
theorem write_field_size_value (r s : Nat) (o : Bool) (rest : List Nat) (hs : s < 2 ^ 31) :
    write_with_info ⟨.AtFieldSize r, o, []⟩ (i32Bytes (s : Int) ++ rest) =
      .ok (⟨.AtField s r, o, []⟩, 4, []) := by
  have hs32 : s < 2 ^ 32 := by omega
  have h1 : read_to [] (i32Bytes (s : Int) ++ rest) 4 = (true, 4, i32Bytes (s : Int)) :=
    read_to_exact _ _ _ rfl
  have hread : readU32 (u32Bytes s ++ []) = some s := readU32_u32Bytes s hs32 []
  simp only [List.append_nil] at hread
  rw [i32Bytes_ofNat s hs32] at h1
  simp only [write_with_info, read_field_size, i32Bytes_ofNat s hs32, h1, Bool.not_true,
    Bool.false_eq_true, if_false, hread, toSigned32_small s hs]
  rw [if_neg (by omega : ¬(s : Int) = -1), usize64_ofNat s (by omega)]

/-- Delivering a non-null payload: exactly the `s = p.length` buffered bytes
are passed to the sink's value path, and the field counter advances. -/
theorem write_field_payload (r : Nat) (o : Bool) (p rest : List Nat) :
    write_with_info ⟨.AtField p.length r, o, []⟩ (p ++ rest) =
      .ok (⟨advance_field_state r, o, []⟩, p.length, [.value p]) := by
  have h1 : read_to [] (p ++ rest) p.length = (true, p.length, p) :=
    read_to_exact _ _ _ rfl
  simp only [write_with_info, read_field, h1, Bool.not_true, Bool.false_eq_true, if_false]

theorem advance_field_state_one : advance_field_state 1 = .AtTuple := rfl

theorem advance_field_state_succ (r : Nat) (h1 : 2 ≤ r) (h2 : r < 2 ^ 64) :
    advance_field_state r = .AtFieldSize (r - 1) := by
  unfold advance_field_state
  rw [if_neg (by omega)]
  exact congrArg WriteState.AtFieldSize (by omega)

theorem advance_field_state_zero :
    advance_field_state 0 = .AtFieldSize (2 ^ 64 - 1) := by
  unfold advance_field_state
  rw [if_neg (by omega)]
  exact congrArg WriteState.AtFieldSize (by omega)

/-! ## Decoder driver composition -/

theorem append_right_ne_nil {A : Type} (a b : List A) (h : b ≠ []) : a ++ b ≠ [] := by
  intro hc
  exact h (List.append_eq_nil.mp hc).2

theorem driveAll_nil (w : BinaryCopyWriter) (fuel : Nat) :
    driveAll w [] (fuel + 1) = .ok (w, []) := by
  simp [driveAll]

/-- Unfolding one call of the push loop that consumes the complete unit `u`
from the front of the input. -/
theorem driveAll_cons (w w' : BinaryCopyWriter) (u rest : List Nat) (evs : List SinkEvent)
    (fuel : Nat) (hne : u ++ rest ≠ [])
    (hcall : write_with_info w (u ++ rest) = .ok (w', u.length, evs)) :
    driveAll w (u ++ rest) (fuel + 1) =
      (driveAll w' rest fuel).map (fun x => (x.1, evs ++ x.2)) := by
  simp only [driveAll, if_neg hne, hcall]
  rw [List.drop_left]
  cases driveAll w' rest fuel <;> rfl

/-- Decoding the fields of one tuple: starting at `AtFieldSize fs.length`,
the wire bytes of `fs` produce exactly the sink events of `fs` (in order)
and return the decoder to `AtTuple`, consuming `fieldsFuel fs` calls. -/
theorem drive_fields (o : Bool) (fs : List (Option (List Nat))) :
    ∀ (rest : List Nat) (fuel : Nat),
      fs ≠ [] →
      fs.length < 2 ^ 64 →
      (∀ p, some p ∈ fs → p.length < 2 ^ 31) →
      rest ≠ [] →
      driveAll ⟨.AtFieldSize fs.length, o, []⟩ (fieldsBytes fs ++ rest)
          (fieldsFuel fs + fuel) =
        (driveAll ⟨.AtTuple, o, []⟩ rest fuel).map
          (fun x => (x.1, fieldEvents fs ++ x.2)) := by
  induction fs with
  | nil => intro _ _ h; exact absurd rfl h
  | cons v fs ih =>
    intro rest fuel _ hlen hp hrest
    simp only [List.length_cons] at hlen
    simp only [List.length_cons]
    have hrest' : fieldsBytes fs ++ rest ≠ [] := append_right_ne_nil _ _ hrest
    have hadv : advance_field_state (fs.length + 1) =
        if fs = [] then WriteState.AtTuple else WriteState.AtFieldSize fs.length := by
      cases fs with
      | nil => simp [advance_field_state_one]
      | cons f fs' =>
        rw [if_neg (by simp)]
        rw [advance_field_state_succ _ (by simp) (by simpa using hlen)]
        simp
    cases v with
    | none =>
      have hcall := write_field_size_null (fs.length + 1) o (fieldsBytes fs ++ rest)
      have hfuel : fieldsFuel (none :: fs) + fuel = (fieldsFuel fs + fuel) + 1 := by
        simp [fieldsFuel]; omega
      have hbytes : fieldsBytes (none :: fs) ++ rest =
          i32Bytes (-1) ++ (fieldsBytes fs ++ rest) := by
        simp [fieldsBytes, fieldBytes, List.append_assoc]
      rw [hbytes, hfuel,
        driveAll_cons _ _ _ _ _ _ (append_right_ne_nil _ _ hrest') hcall]
      by_cases hfs : fs = []
      · subst hfs
        rw [hadv]
        simp only [if_pos rfl, fieldsBytes, List.nil_append, fieldsFuel, Nat.zero_add]
        cases hout : driveAll ⟨.AtTuple, o, []⟩ rest fuel <;>
          simp [hout, Except.map, fieldEvents, sinkEventOf, fieldsFuel, fieldsBytes,
            List.append_assoc]
      · rw [hadv, if_neg hfs]
        rw [ih rest fuel hfs (by omega)
          (fun p hp' => hp p (by simp [hp'])) hrest]
        rw [except_map_map]
        cases hout : driveAll ⟨.AtTuple, o, []⟩ rest fuel <;>
          simp [hout, Except.map, fieldEvents, sinkEventOf, fieldsFuel, fieldsBytes,
            List.append_assoc]
    | some p =>
      have hplen : p.length < 2 ^ 31 := hp p (by simp)
      have hcall := write_field_size_value (fs.length + 1) p.length o
        (p ++ (fieldsBytes fs ++ rest)) hplen
      have hcall2 := write_field_payload (fs.length + 1) o p (fieldsBytes fs ++ rest)
      have hfuel : fieldsFuel (some p :: fs) + fuel = ((fieldsFuel fs + fuel) + 1) + 1 := by
        simp [fieldsFuel]; omega
      have hbytes : fieldsBytes (some p :: fs) ++ rest =
          i32Bytes (p.length : Int) ++ (p ++ (fieldsBytes fs ++ rest)) := by
        simp [fieldsBytes, fieldBytes, List.append_assoc]
      rw [hbytes, hfuel,
        driveAll_cons _ _ _ _ _ _ (append_right_ne_nil _ _
          (append_right_ne_nil _ _ hrest')) hcall,
        driveAll_cons _ _ _ _ _ _ (append_right_ne_nil _ _ hrest') hcall2]
      by_cases hfs : fs = []
      · subst hfs
        rw [hadv]
        simp only [if_pos rfl, fieldsBytes, List.nil_append, fieldsFuel, Nat.zero_add]
        cases hout : driveAll ⟨.AtTuple, o, []⟩ rest fuel <;>
          simp [hout, Except.map, fieldEvents, sinkEventOf, fieldsFuel, fieldsBytes,
            List.append_assoc]
      · rw [hadv, if_neg hfs]
        rw [ih rest fuel hfs (by omega)
          (fun q hq' => hp q (by simp [hq'])) hrest]
        rw [except_map_map, except_map_map]
        cases hout : driveAll ⟨.AtTuple, o, []⟩ rest fuel <;>
          simp [hout, Except.map, fieldEvents, sinkEventOf, fieldsFuel, fieldsBytes,
            List.append_assoc]

/-- Decoding a sequence of complete tuples (no OIDs): each tuple's field
count matches the schema width `L`, its fields' events are emitted in order,
and the decoder returns to `AtTuple` after each tuple. -/
theorem drive_rows (L : Nat) (hL1 : 1 ≤ L) (hL2 : L ≤ 32767)
    (rows : List (List (Option (List Nat)))) :
    ∀ (rest : List Nat) (fuel : Nat),
      (∀ r, r ∈ rows → r.length = L) →
      (∀ p, some p ∈ flattenRows rows → p.length < 2 ^ 31) →
      rest ≠ [] →
      driveAll ⟨.AtTuple, false, []⟩ (rowsBytes L rows ++ rest) (rowsFuel rows + fuel) =
        (driveAll ⟨.AtTuple, false, []⟩ rest fuel).map
          (fun x => (x.1, fieldEvents (flattenRows rows) ++ x.2)) := by
  induction rows with
  | nil =>
    intro rest fuel _ _ _
    simp only [rowsBytes, rowsFuel, List.nil_append, Nat.zero_add, flattenRows]
    cases hout : driveAll ⟨.AtTuple, false, []⟩ rest fuel <;>
      simp [hout, Except.map, fieldEvents]
  | cons row rows ih =>
    intro rest fuel hlen hp hrest
    have hrowlen : row.length = L := hlen row (by simp)
    have hrow0 : row ≠ [] := by
      intro hc; rw [hc] at hrowlen; simp at hrowlen; omega
    have hrest2 : rowsBytes L rows ++ rest ≠ [] := append_right_ne_nil _ _ hrest
    have hrest3 : fieldsBytes row ++ (rowsBytes L rows ++ rest) ≠ [] :=
      append_right_ne_nil _ _ hrest2
    have hcall := read_tuple_count L false (fieldsBytes row ++ (rowsBytes L rows ++ rest))
      hL2 (by intro h; cases h)
    simp only [Bool.false_eq_true, if_false] at hcall
    have hbytes : rowsBytes L (row :: rows) ++ rest =
        u16Bytes L ++ (fieldsBytes row ++ (rowsBytes L rows ++ rest)) := by
      simp [rowsBytes, rowBytes, List.append_assoc]
    have hfuel : rowsFuel (row :: rows) + fuel =
        (fieldsFuel row + (rowsFuel rows + fuel)) + 1 := by
      simp [rowsFuel]; omega
    rw [hbytes, hfuel, driveAll_cons _ _ _ _ _ _ (append_right_ne_nil _ _ hrest3) hcall]
    rw [show WriteState.AtFieldSize L = WriteState.AtFieldSize row.length by rw [hrowlen]]
    rw [drive_fields false row (rowsBytes L rows ++ rest) (rowsFuel rows + fuel) hrow0
      (by omega) (fun p hp' => hp p (by simp [flattenRows, hp'])) hrest2]
    rw [ih rest fuel (fun r hr => hlen r (by simp [hr]))
      (fun p hp' => hp p (by simp [flattenRows, hp'])) hrest]
    rw [except_map_map, except_map_map]
    cases hout : driveAll ⟨.AtTuple, false, []⟩ rest fuel <;>
      simp [hout, Except.map, fieldEvents, flattenRows, List.append_assoc]

/-- The footer tuple marker followed by end of input: terminal state, no
further sink events. -/
theorem driveAll_footer (o : Bool) :
    driveAll ⟨.AtTuple, o, []⟩ (i16Bytes (-1)) 2 = .ok (⟨.Done, o, []⟩, []) := by
  have hcall := read_tuple_footer o []
  have hne : i16Bytes (-1) ++ [] ≠ [] := by simp [i16Bytes, u16Bytes]
  rw [show i16Bytes (-1) = i16Bytes (-1) ++ [] from (List.append_nil _).symm,
    show (2 : Nat) = 1 + 1 from rfl,
    driveAll_cons _ _ _ _ _ 1 hne hcall]
  have h0 := driveAll_nil ⟨.Done, o, []⟩ 0
  simp only [Nat.zero_add] at h0
  rw [h0]
  rfl

/-- Decoding the complete encoder output: header, all tuples, footer. -/
theorem decode_stream (L : Nat) (hL1 : 1 ≤ L) (hL2 : L ≤ 32767)
    (rows : List (List (Option (List Nat))))
    (hlen : ∀ r, r ∈ rows → r.length = L)
    (hp : ∀ p, some p ∈ flattenRows rows → p.length < 2 ^ 31) :
    driveAll newWriter (headerPreload ++ (rowsBytes L rows ++ i16Bytes (-1)))
        ((rowsFuel rows + 2) + 1) =
      .ok (⟨.Done, false, []⟩, fieldEvents (flattenRows rows)) := by
  have hfoot : (i16Bytes (-1) : List Nat) ≠ [] := by simp [i16Bytes, u16Bytes]
  have hrest : rowsBytes L rows ++ i16Bytes (-1) ≠ [] := append_right_ne_nil _ _ hfoot
  have hzero : (i32Bytes 0 : List Nat) = u32Bytes 0 := by decide
  have hcall := read_header_spec 0 0 false (rowsBytes L rows ++ i16Bytes (-1)) (by omega)
  rw [if_neg (by simp)] at hcall
  have hbytes : headerPreload ++ (rowsBytes L rows ++ i16Bytes (-1)) =
      (HEADER_MAGIC ++ u32Bytes 0 ++ u32Bytes 0) ++ (rowsBytes L rows ++ i16Bytes (-1)) := by
    simp [headerPreload, hzero]
  rw [show ((0 &&& 65536 : Nat) != 0) = false from by decide] at hcall
  rw [show newWriter = (⟨.AtHeader, false, []⟩ : BinaryCopyWriter) from rfl, hbytes,
    driveAll_cons _ _ _ _ _ _ (append_right_ne_nil _ _ hrest) hcall]
  rw [drive_rows L hL1 hL2 rows (i16Bytes (-1)) 2 hlen hp hfoot]
  rw [driveAll_footer]
  simp [Except.map]

/-! ## Row chunking -/

/-- Any value sequence whose length is a multiple of `L ≥ 1` is the row-major
flattening of a list of rows of length `L`. -/
theorem exists_rows (L : Nat) (hL : 1 ≤ L) :
    ∀ (n : Nat) (values : List (Option (List Nat))), values.length = n →
      values.length % L = 0 →
      ∃ rows, (∀ r, r ∈ rows → r.length = L) ∧ flattenRows rows = values := by
  intro n
  induction n using Nat.strong_induction_on with
  | _ n ih =>
    intro values hn hmul
    by_cases hz : values = []
    · exact ⟨[], by simp, by simp [hz, flattenRows]⟩
    · have hpos : 0 < values.length := List.length_pos.mpr hz
      have hL_le : L ≤ values.length := by
        rcases Nat.lt_or_ge values.length L with h | h
        · have := Nat.mod_eq_of_lt h
          omega
        · exact h
      obtain ⟨k, hk⟩ := Nat.dvd_of_mod_eq_zero hmul
      have hmul' : (values.drop L).length % L = 0 := by
        have hdl : (values.drop L).length = values.length - L := List.length_drop L values
        have hk1 : 1 ≤ k := by
          by_contra hc
          push_neg at hc
          interval_cases k
          omega
        have : values.length - L = L * (k - 1) := by
          rw [hk, Nat.mul_sub]
          omega
        rw [hdl, this]
        exact Nat.mul_mod_right L (k - 1)
      obtain ⟨rows', h1, h2⟩ := ih (values.length - L) (by omega) (values.drop L)
        (by rw [List.length_drop]) hmul'
      refine ⟨values.take L :: rows', ?_, ?_⟩
      · intro r hr
        rcases List.mem_cons.mp hr with h | h
        · subst h
          rw [List.length_take]
          omega
        · exact h1 r h
      · simp only [flattenRows, h2, List.take_append_drop]

/-! ## Claim theorems -/

/-- C1 counterexample: a header whose flags word is `1` (bit 0 set — a bit
other than bit 16) is *accepted* by the decoder (moving to `AtTuple` with
`has_oids = false`), contradicting the claim that any flag bit other than
bit 16 makes the consume call fail with the unsupported-feature FormatError.
The source checks only `flags & (!0 << 17)` (bits 17..31); bits 0..15 are
ignored.  The second conjunct records that bit 16 is *not* set in this flags
word, so some "other" bit is set. -/
theorem C1_counterexample :
    write_with_info newWriter (HEADER_MAGIC ++ u32Bytes 1 ++ u32Bytes 0) =
      .ok (⟨.AtTuple, false, []⟩, 19, []) ∧
    (1 : Nat) &&& 65536 = 0 ∧ (1 : Nat) ≠ 0 := by
  refine ⟨by decide, by decide, by decide⟩

/-- C1 (amended): for a header with valid magic and flags word `u`, the
consume call fails with the `"Critical file format issue"` FormatError
exactly when one of the bits 17..31 of `u` (mask `0xFFFE0000`) is set;
otherwise it succeeds, recording the OID-present adjustment exactly when
bit 16 is set.  Bits 0..15 are ignored. -/
theorem C1_header_flags (u : Nat) (b : Bool) (rest : List Nat) (hu : u < 2 ^ 32) :
    (u &&& 4294836224 ≠ 0 →
      write_with_info ⟨.AtHeader, b, []⟩ (HEADER_MAGIC ++ u32Bytes u ++ u32Bytes 0 ++ rest) =
        .error .formatBadFlags) ∧
    (u &&& 4294836224 = 0 →
      write_with_info ⟨.AtHeader, b, []⟩ (HEADER_MAGIC ++ u32Bytes u ++ u32Bytes 0 ++ rest) =
        .ok (⟨.AtTuple, (u &&& 65536) != 0, []⟩, 19, [])) := by
  constructor
  · intro h
    rw [read_header_spec u 0 b rest hu, if_pos h]
  · intro h
    rw [read_header_spec u 0 b rest hu, if_neg (fun hc => hc h)]

/-- C1 witness: flags word `0x10000` (only bit 16): accepted, OIDs recorded. -/
theorem C1_witness :
    write_with_info ⟨.AtHeader, false, []⟩
        (HEADER_MAGIC ++ u32Bytes 65536 ++ u32Bytes 0 ++ []) =
      .ok (⟨.AtTuple, ((65536 : Nat) &&& 65536) != 0, []⟩, 19, []) :=
  (C1_header_flags 65536 false [] (by decide)).2 (by decide)

/-- C2: round trip.  For a non-empty schema of width `L` (at most the i16
maximum) and any value sequence whose length is an exact multiple of `L`
(including the empty sequence) with encodable payloads, encoding and then
pushing the produced byte stream through the decoder reproduces exactly the
per-field payload bytes and null markers, in the same row-major order, and
leaves the decoder in the terminal state. -/
theorem C2_round_trip (L : Nat) (values : List (Option (List Nat)))
    (hL1 : 1 ≤ L) (hL2 : L ≤ 32767)
    (hmul : values.length % L = 0)
    (hp : ∀ p, some p ∈ values → p.length < 2 ^ 31) :
    ∃ stream fuel, encode L values = .ok stream ∧
      driveAll newWriter stream fuel =
        .ok (⟨.Done, false, []⟩, values.map sinkEventOf) := by
  obtain ⟨rows, hrlen, hflat⟩ := exists_rows L hL1 values.length values rfl hmul
  subst hflat
  refine ⟨_, (rowsFuel rows + 2) + 1, encode_eq L hL1 hL2 rows hrlen hp, ?_⟩
  have hd := decode_stream L hL1 hL2 rows hrlen hp
  simpa [fieldEvents] using hd

/-- C2 witness: one column, one row holding a null and then one row holding
a one-byte value would need two rows; here a single-row instance. -/
theorem C2_witness :
    ∃ stream fuel, encode 1 [none, some [7]] = .ok stream ∧
      driveAll newWriter stream fuel =
        .ok (⟨.Done, false, []⟩, [none, some [7]].map sinkEventOf) :=
  C2_round_trip 1 [none, some [7]] (by decide) (by decide) (by decide)
    (by intro p hp; simp at hp; subst hp; decide)

/-- C3: the completion flag computed by `read_to` compares `nread` with
`to_read`, which are always equal (`Vec::write` appends the whole slice), so
the "unit incomplete, wait for more input" early return is unreachable: the
first conjunct proves the flag is constantly `true`.  Consequently decoding
is *not* chunk-size independent: the minimal valid stream (header followed by
the `-1` footer marker) decodes fine when fed whole (third conjunct), but
feeding the same stream one byte at a time makes the very first consume call
treat the 1-byte staging buffer as a complete header and panic on the
11-byte magic slice (second conjunct), where the claim requires the same
sink call sequence for every partition. -/
theorem C3_chunking_bug :
    (∀ acc chunk size, (read_to acc chunk size).1 = true) ∧
    write_with_info newWriter [0x50] = .error .panicSliceOOB ∧
    driveAll newWriter (headerPreload ++ i16Bytes (-1)) 3 =
      .ok (⟨.Done, false, []⟩, []) := by
  exact ⟨read_to_done, by decide, by decide⟩

/-- C4 counterexample: a decoded tuple whose 2-byte field count is `0`
(≠ -1, no OIDs) does *not* lead to the sink being invoked exactly 0 times
followed by a return to the tuple-header state.  Instead the decoder moves
to `AtFieldSize 0` and misparses what follows: feeding the 6-byte sequence
`00 00 ff ff ff ff` (count 0, then bytes that are in fact the next unit)
invokes the sink once (a null) and leaves the decoder expecting
`2^64 - 1` further fields — the `remaining - 1` usize underflow. -/
theorem C4_counterexample :
    write_with_info ⟨.AtTuple, false, []⟩ ([0, 0] ++ i32Bytes (-1)) =
      .ok (⟨.AtFieldSize 0, false, []⟩, 2, []) ∧
    driveAll ⟨.AtTuple, false, []⟩ ([0, 0] ++ i32Bytes (-1)) 3 =
      .ok (⟨.AtFieldSize (2 ^ 64 - 1), false, []⟩, [.null]) := by
  have h1 : write_with_info ⟨.AtTuple, false, []⟩ (u16Bytes 0 ++ i32Bytes (-1)) =
      .ok (⟨.AtFieldSize 0, false, []⟩, 2, []) := by
    have := read_tuple_count 0 false (i32Bytes (-1)) (by omega) (by intro h; cases h)
    simpa using this
  have h2 : write_with_info ⟨.AtFieldSize 0, false, []⟩ (i32Bytes (-1) ++ []) =
      .ok (⟨.AtFieldSize (2 ^ 64 - 1), false, []⟩, 4, [.null]) := by
    rw [write_field_size_null, advance_field_state_zero]
  constructor
  · exact h1
  · rw [show ([0, 0] ++ i32Bytes (-1) : List Nat) = u16Bytes 0 ++ i32Bytes (-1) from rfl,
      show (3 : Nat) = 2 + 1 from rfl,
      driveAll_cons _ _ _ _ _ 2 (by decide) h1,
      show (i32Bytes (-1) : List Nat) = i32Bytes (-1) ++ [] from (List.append_nil _).symm,
      show (2 : Nat) = 1 + 1 from rfl,
      driveAll_cons _ _ _ _ _ 1 (by decide) h2]
    have h0 := driveAll_nil ⟨.AtFieldSize (2 ^ 64 - 1), false, []⟩ 0
    simp only [Nat.zero_add] at h0
    rw [h0]
    rfl

/-- C4 (amended): for every decoded tuple whose 2-byte field count is `n`
with `1 ≤ n ≤ 32767` (and `n < 32767` when the OID flag is present, so that
the `i16` increment cannot overflow), the sink is invoked exactly `n` times
(`n + 1` with OIDs) for that tuple before the decoder returns to the
tuple-header state: the tuple's units decode to exactly the events of its
`n + adjustment` fields and the continuation restarts from `AtTuple`.
Counts `0` and negative counts instead send the decoder into a bogus
remaining-field count (see the counterexample). -/
theorem C4_field_count (n : Nat) (o : Bool) (fields : List (Option (List Nat)))
    (rest : List Nat) (fuel : Nat)
    (hn1 : 1 ≤ n) (hn2 : n ≤ 32767) (ho : o = true → n < 32767)
    (hlen : fields.length = n + (if o then 1 else 0))
    (hp : ∀ p, some p ∈ fields → p.length < 2 ^ 31)
    (hrest : rest ≠ []) :
    driveAll ⟨.AtTuple, o, []⟩ (u16Bytes n ++ (fieldsBytes fields ++ rest))
        ((fieldsFuel fields + fuel) + 1) =
      (driveAll ⟨.AtTuple, o, []⟩ rest fuel).map
        (fun x => (x.1, fieldEvents fields ++ x.2)) ∧
    (fieldEvents fields).length = n + (if o then 1 else 0) := by
  have hne : fields ≠ [] := by
    intro hc
    rw [hc] at hlen
    cases o <;> simp at hlen
    omega
  have hlt : fields.length < 2 ^ 64 := by
    rw [hlen]; cases o <;> simp <;> omega
  constructor
  · have hcall := read_tuple_count n o (fieldsBytes fields ++ rest) hn2 ho
    have hstate : WriteState.AtFieldSize (if o then n + 1 else n) =
        WriteState.AtFieldSize fields.length := by
      rw [hlen]; cases o <;> simp
    rw [driveAll_cons _ _ _ _ _ _
        (append_right_ne_nil _ _ (append_right_ne_nil _ _ hrest)) hcall,
      hstate, drive_fields o fields rest fuel hne hlt hp hrest]
    cases hout : driveAll ⟨.AtTuple, o, []⟩ rest fuel <;> simp [hout, Except.map]
  · simp [fieldEvents, hlen]

/-- C4 witness: one tuple of one null field (count 1, no OIDs), followed by
the footer bytes as continuation. -/
theorem C4_witness :
    driveAll ⟨.AtTuple, false, []⟩ (u16Bytes 1 ++ (fieldsBytes [none] ++ [255, 255]))
        ((fieldsFuel [none] + 2) + 1) =
      (driveAll ⟨.AtTuple, false, []⟩ [255, 255] 2).map
        (fun x => (x.1, fieldEvents [none] ++ x.2)) ∧
    (fieldEvents [none]).length = 1 + (if false then 1 else 0) :=
  C4_field_count 1 false [none] [255, 255] 2 (by decide) (by decide)
    (by intro h; cases h) (by decide) (by intro p hp; simp at hp) (by decide)

/-- C5: LimitError characterization.  Provided the schema is non-empty (the
encoder's precondition; with an empty schema the refill panics before any
length check), a refill fails with the `"value too large to transmit"` limit
error exactly when it pulls a value at field index 0 of a schema wider than
the 16-bit signed maximum, or pulls a non-null value whose payload length
exceeds the 32-bit signed maximum; in every other case no limit error is
raised. -/
theorem C5_limit_iff (r : BinaryCopyReader) (hL : 1 ≤ r.typesLen) :
    fill_buf r = .error .limit ↔
      ∃ idx v it', nextIdx r = some idx ∧ r.it = v :: it' ∧
        ((idx = 0 ∧ r.typesLen > 32767) ∨
         (∃ p, v = some p ∧ 2 ^ 31 - 1 < p.length)) := by
  obtain ⟨L, st, it, b⟩ := r
  simp only at hL
  cases st with
  | Footer =>
    rw [fill_buf_nothing]
    simp [nextIdx]
  | Header =>
    cases it with
    | nil =>
      rw [fill_buf_footer _ _ _ (Or.inl rfl)]
      simp [nextIdx]
    | cons v vs =>
      simp only [nextIdx, Option.some.injEq]
      by_cases h32 : L > 32767
      · have hlim : fill_buf ⟨L, .Header, v :: vs, b⟩ = .error .limit := by
          simp [fill_buf, h32]
        rw [hlim]
        simp only [true_iff]
        exact ⟨0, v, vs, rfl, rfl, Or.inl ⟨rfl, h32⟩⟩
      · cases v with
        | none =>
          rw [fill_buf_value L .Header 0 none vs b (fun _ => by omega)
            (Or.inl ⟨rfl, rfl⟩) (by omega) (by intro p h; cases h)]
          simp [h32]
        | some p =>
          by_cases hbig : 2 ^ 31 - 1 < p.length
          · have hlim : fill_buf ⟨L, .Header, some p :: vs, b⟩ = .error .limit := by
              simp [fill_buf, h32, show 0 < L by omega,
                show (2147483647 : Nat) < p.length by omega]
            rw [hlim]
            simp only [true_iff]
            exact ⟨0, some p, vs, rfl, rfl, Or.inr ⟨p, rfl, hbig⟩⟩
          · rw [fill_buf_value L .Header 0 (some p) vs b (fun _ => by omega)
              (Or.inl ⟨rfl, rfl⟩) (by omega) (by intro q h; cases h; omega)]
            simp [h32]
            omega
  | Body old =>
    have hL0 : L ≠ 0 := by omega
    cases it with
    | nil =>
      rw [fill_buf_footer _ _ _ (Or.inr ⟨old, rfl⟩)]
      simp [nextIdx]
    | cons v vs =>
      have hidxlt : (old + 1) % L < L := Nat.mod_lt _ (by omega)
      simp only [nextIdx, Option.some.injEq]
      by_cases hidx0 : (old + 1) % L = 0
      · by_cases h32 : L > 32767
        · have hlim : fill_buf ⟨L, .Body old, v :: vs, b⟩ = .error .limit := by
            simp [fill_buf, hL0, hidx0, h32]
          rw [hlim]
          simp only [true_iff]
          exact ⟨(old + 1) % L, v, vs, rfl, rfl, Or.inl ⟨hidx0, h32⟩⟩
        · cases v with
          | none =>
            rw [fill_buf_value L (.Body old) ((old + 1) % L) none vs b (fun _ => by omega)
              (Or.inr ⟨old, rfl, rfl⟩) hidxlt (by intro p h; cases h)]
            simp [h32]
          | some p =>
            by_cases hbig : 2 ^ 31 - 1 < p.length
            · have hlim : fill_buf ⟨L, .Body old, some p :: vs, b⟩ = .error .limit := by
                simp [fill_buf, hL0, hidx0, h32, show 0 < L by omega,
                  show (2147483647 : Nat) < p.length by omega]
              rw [hlim]
              simp only [true_iff]
              exact ⟨(old + 1) % L, some p, vs, rfl, rfl, Or.inr ⟨p, rfl, hbig⟩⟩
            · rw [fill_buf_value L (.Body old) ((old + 1) % L) (some p) vs b
                (fun _ => by omega) (Or.inr ⟨old, rfl, rfl⟩) hidxlt
                (by intro q h; cases h; omega)]
              simp [h32]
              omega
      · cases v with
        | none =>
          rw [fill_buf_value L (.Body old) ((old + 1) % L) none vs b
            (fun h => absurd h hidx0) (Or.inr ⟨old, rfl, rfl⟩) hidxlt
            (by intro p h; cases h)]
          simp [hidx0]
        | some p =>
          by_cases hbig : 2 ^ 31 - 1 < p.length
          · have hlim : fill_buf ⟨L, .Body old, some p :: vs, b⟩ = .error .limit := by
              simp [fill_buf, hL0, hidx0, hidxlt,
                show (2147483647 : Nat) < p.length by omega]
            rw [hlim]
            simp only [true_iff]
            exact ⟨(old + 1) % L, some p, vs, rfl, rfl, Or.inr ⟨p, rfl, hbig⟩⟩
          · rw [fill_buf_value L (.Body old) ((old + 1) % L) (some p) vs b
              (fun h => absurd h hidx0) (Or.inr ⟨old, rfl, rfl⟩) hidxlt
              (by intro q h; cases h; omega)]
            simp [hidx0]
            omega

/-- C5 witness: a 40000-column schema triggers the limit error at field
index 0 (via `mpr`); a 1-column schema with a tiny payload cannot raise it
(via `mp`). -/
theorem C5_witness :
    fill_buf ⟨40000, .Header, [none], []⟩ = .error .limit ∧
    fill_buf ⟨1, .Header, [some [7]], []⟩ ≠ .error .limit := by
  constructor
  · exact (C5_limit_iff ⟨40000, .Header, [none], []⟩ (by decide)).mpr
      ⟨0, none, [], rfl, rfl, Or.inl ⟨rfl, by decide⟩⟩
  · intro hc
    obtain ⟨idx, v, it', h1, h2, h3⟩ :=
      (C5_limit_iff ⟨1, .Header, [some [7]], []⟩ (by decide)).mp hc
    simp only [nextIdx, Option.some.injEq] at h1
    simp only [List.cons.injEq] at h2
    rcases h3 with ⟨_, h4⟩ | ⟨p, hp1, hp2⟩
    · simp at h4
    · rw [← h2.1] at hp1
      cases hp1
      simp at hp2

/-- C6: every value pulled by a refill is emitted as the optional 2-byte
big-endian tuple field count (exactly when its field index is 0, equal to
the column count), followed by a 4-byte big-endian length prefix and the
payload: `-1` with no payload bytes for a null, the exact payload byte count
otherwise; the field index is 0 from `Header` and `(previous + 1) mod
columnCount` from `Body previous`, and is recorded in the new state. -/
theorem C6_encoder_emission (L : Nat) (st : ReadState) (v : Option (List Nat))
    (vs : List (Option (List Nat))) (b : List Nat)
    (hL1 : 1 ≤ L) (hL2 : L ≤ 32767)
    (hst : st = .Header ∨ ∃ old, st = .Body old)
    (hp : ∀ p, v = some p → p.length < 2 ^ 31) :
    ∃ idx, idx = (match st with
        | .Header => 0
        | .Body old => (old + 1) % L
        | .Footer => 0) ∧
      fill_buf ⟨L, st, v :: vs, b⟩ =
        .ok ⟨L, .Body idx, vs, (if idx = 0 then u16Bytes L else []) ++ fieldBytes v⟩ := by
  rcases hst with hst | ⟨old, hst⟩ <;> subst hst
  · exact ⟨0, rfl,
      fill_buf_value L .Header 0 v vs b (fun _ => hL2) (Or.inl ⟨rfl, rfl⟩) (by omega) hp⟩
  · exact ⟨(old + 1) % L, rfl,
      fill_buf_value L (.Body old) ((old + 1) % L) v vs b (fun _ => hL2)
        (Or.inr ⟨old, rfl, rfl⟩) (Nat.mod_lt _ (by omega)) hp⟩

/-- C6 witness: a 2-column schema, refill pulling the second field of a row. -/
theorem C6_witness :
    ∃ idx, idx = (match ReadState.Body 0 with
        | .Header => 0
        | .Body old => (old + 1) % 2
        | .Footer => 0) ∧
      fill_buf ⟨2, .Body 0, some [9] :: [], []⟩ =
        .ok ⟨2, .Body idx, [], (if idx = 0 then u16Bytes 2 else []) ++ fieldBytes (some [9])⟩ :=
  C6_encoder_emission 2 (.Body 0) (some [9]) [] [] (by decide) (by decide)
    (Or.inr ⟨0, rfl⟩) (by intro p h; cases h; decide)

/-- C7: a field whose 4-byte length prefix is `-1` makes the decoder call
the sink's null path (never the value path), consume only the 4 prefix
bytes, and advance — to the tuple-header state when exactly one field
remained, otherwise awaiting the next field length with the remaining count
decremented by one; the identical advance rule applies after a non-null
field's payload is delivered to the sink's value path. -/
theorem C7_null_and_advance (r : Nat) (o : Bool) (h1 : 1 ≤ r) (h2 : r < 2 ^ 64) :
    (∀ rest, write_with_info ⟨.AtFieldSize r, o, []⟩ (i32Bytes (-1) ++ rest) =
        .ok (⟨if r = 1 then .AtTuple else .AtFieldSize (r - 1), o, []⟩, 4, [.null])) ∧
    (∀ p rest, write_with_info ⟨.AtField p.length r, o, []⟩ (p ++ rest) =
        .ok (⟨if r = 1 then .AtTuple else .AtFieldSize (r - 1), o, []⟩, p.length,
          [.value p])) := by
  have hadv : advance_field_state r =
      if r = 1 then WriteState.AtTuple else WriteState.AtFieldSize (r - 1) := by
    by_cases hr : r = 1
    · simp [hr, advance_field_state_one]
    · rw [if_neg hr, advance_field_state_succ r (by omega) h2]
  constructor
  · intro rest
    rw [write_field_size_null, hadv]
  · intro p rest
    rw [write_field_payload, hadv]

/-- C7 witness: two fields remaining. -/
theorem C7_witness :
    (∀ rest, write_with_info ⟨.AtFieldSize 2, false, []⟩ (i32Bytes (-1) ++ rest) =
        .ok (⟨if 2 = 1 then .AtTuple else .AtFieldSize (2 - 1), false, []⟩, 4, [.null])) ∧
    (∀ p rest, write_with_info ⟨.AtField p.length 2, false, []⟩ (p ++ rest) =
        .ok (⟨if 2 = 1 then .AtTuple else .AtFieldSize (2 - 1), false, []⟩, p.length,
          [.value p])) :=
  C7_null_and_advance 2 false (by decide) (by norm_num)

/-- C8: a 2-byte tuple field count of `-1` moves the decoder to the terminal
`Done` state (consuming the 2 bytes, no sink call); afterwards every consume
call, with any staging-buffer content and any input (including empty input),
fails with the `"Unexpected input after stream end"` FormatError before any
sink invocation — the model returns the error with no sink events. -/
theorem C8_terminal (o : Bool) :
    (∀ rest, write_with_info ⟨.AtTuple, o, []⟩ (i16Bytes (-1) ++ rest) =
        .ok (⟨.Done, o, []⟩, 2, [])) ∧
    (∀ buf input, write_with_info ⟨.Done, o, buf⟩ input = .error .formatAfterEnd) :=
  ⟨fun rest => read_tuple_footer o rest, fun _ _ => rfl⟩

/-- C9: encoder totality requires a non-empty schema.  With zero columns,
any refill that pulls a value panics: from `Body old` the index wraparound
`(old + 1) % types.len()` divides by zero; from `Header` the field index 0
is used to index the empty type slice.  With at least one column no panic
is possible — the only refill error (conversion failures of the external
capability aside, which the model's total values cannot produce) is the
limit error. -/
theorem C9_empty_schema_panics :
    (∀ old v vs b, fill_buf ⟨0, .Body old, v :: vs, b⟩ = .error .panicDivZero) ∧
    (∀ v vs b, fill_buf ⟨0, .Header, v :: vs, b⟩ = .error .panicIndexOOB) ∧
    (∀ r e, 1 ≤ r.typesLen → fill_buf r = .error e → e = .limit) := by
  refine ⟨fun old v vs b => rfl, fun v vs b => rfl, ?_⟩
  intro r e hL he
  obtain ⟨L, st, it, b⟩ := r
  simp only at hL
  by_cases hlim : fill_buf ⟨L, st, it, b⟩ = .error .limit
  · rw [hlim] at he
    injection he with h
    exact h.symm
  · exfalso
    cases st with
    | Footer =>
      rw [fill_buf_nothing] at he
      exact Except.noConfusion he
    | Header =>
      cases it with
      | nil =>
        rw [fill_buf_footer _ _ _ (Or.inl rfl)] at he
        exact Except.noConfusion he
      | cons v vs =>
        by_cases h32 : L > 32767
        · exact hlim (by simp [fill_buf, h32])
        · cases v with
          | none =>
            rw [fill_buf_value L .Header 0 none vs b (fun _ => by omega)
              (Or.inl ⟨rfl, rfl⟩) (by omega) (by intro p h; cases h)] at he
            exact Except.noConfusion he
          | some p =>
            by_cases hbig : 2 ^ 31 - 1 < p.length
            · exact hlim (by
                simp [fill_buf, h32, show 0 < L by omega,
                  show (2147483647 : Nat) < p.length by omega])
            · rw [fill_buf_value L .Header 0 (some p) vs b (fun _ => by omega)
                (Or.inl ⟨rfl, rfl⟩) (by omega) (by intro q h; cases h; omega)] at he
              exact Except.noConfusion he
    | Body old =>
      have hL0 : L ≠ 0 := by omega
      cases it with
      | nil =>
        rw [fill_buf_footer _ _ _ (Or.inr ⟨old, rfl⟩)] at he
        exact Except.noConfusion he
      | cons v vs =>
        have hidxlt : (old + 1) % L < L := Nat.mod_lt _ (by omega)
        by_cases hidx0 : (old + 1) % L = 0
        · by_cases h32 : L > 32767
          · exact hlim (by simp [fill_buf, hL0, hidx0, h32])
          · cases v with
            | none =>
              rw [fill_buf_value L (.Body old) ((old + 1) % L) none vs b
                (fun _ => by omega) (Or.inr ⟨old, rfl, rfl⟩) hidxlt
                (by intro p h; cases h)] at he
              exact Except.noConfusion he
            | some p =>
              by_cases hbig : 2 ^ 31 - 1 < p.length
              · exact hlim (by
                  simp [fill_buf, hL0, hidx0, h32, show 0 < L by omega,
                    show (2147483647 : Nat) < p.length by omega])
              · rw [fill_buf_value L (.Body old) ((old + 1) % L) (some p) vs b
                  (fun _ => by omega) (Or.inr ⟨old, rfl, rfl⟩) hidxlt
                  (by intro q h; cases h; omega)] at he
                exact Except.noConfusion he
        · cases v with
          | none =>
            rw [fill_buf_value L (.Body old) ((old + 1) % L) none vs b
              (fun h => absurd h hidx0) (Or.inr ⟨old, rfl, rfl⟩) hidxlt
              (by intro p h; cases h)] at he
            exact Except.noConfusion he
          | some p =>
            by_cases hbig : 2 ^ 31 - 1 < p.length
            · exact hlim (by
                simp [fill_buf, hL0, hidx0, hidxlt,
                  show (2147483647 : Nat) < p.length by omega])
            · rw [fill_buf_value L (.Body old) ((old + 1) % L) (some p) vs b
                (fun h => absurd h hidx0) (Or.inr ⟨old, rfl, rfl⟩) hidxlt
                (by intro q h; cases h; omega)] at he
              exact Except.noConfusion he

/-- C9 witness: both panics at concrete inputs, and an application of the
no-panic part to a refill that does error (limit, at 40000 columns). -/
theorem C9_witness :
    fill_buf ⟨0, .Body 0, [none], []⟩ = .error .panicDivZero ∧
    fill_buf ⟨0, .Header, [none], []⟩ = .error .panicIndexOOB ∧
    EncodeError.limit = EncodeError.limit :=
  ⟨C9_empty_schema_panics.1 0 none [] [],
   C9_empty_schema_panics.2.1 none [] [],
   C9_empty_schema_panics.2.2 ⟨40000, .Header, [none], []⟩ .limit (by decide) (by decide)⟩

/-- C10: the decoder's field-advance is total only when every non-terminal
tuple field count (after the OID adjustment) is at least 1.  A wire field
count of 0 (no OIDs) transitions to `AtFieldSize 0` — it is *not* treated as
an immediately complete tuple (fourth conjunct: the return-to-tuple
transition fires exactly at remaining = 1); processing a field in that state
then computes `remaining - 1` at `remaining = 0`, an unguarded `usize`
underflow, modelled as the release-mode wrap to `2^64 - 1` (second and third
conjuncts). -/
theorem C10_zero_count_underflow :
    (∀ rest, write_with_info ⟨.AtTuple, false, []⟩ (u16Bytes 0 ++ rest) =
        .ok (⟨.AtFieldSize 0, false, []⟩, 2, [])) ∧
    (∀ o rest, write_with_info ⟨.AtFieldSize 0, o, []⟩ (i32Bytes (-1) ++ rest) =
        .ok (⟨.AtFieldSize (2 ^ 64 - 1), o, []⟩, 4, [.null])) ∧
    advance_field_state 0 = .AtFieldSize (2 ^ 64 - 1) ∧
    (∀ r, advance_field_state r = .AtTuple ↔ r = 1) := by
  refine ⟨?_, ?_, advance_field_state_zero, ?_⟩
  · intro rest
    have h := read_tuple_count 0 false rest (by omega) (by intro h; cases h)
    simpa using h
  · intro o rest
    rw [write_field_size_null, advance_field_state_zero]
  · intro r
    constructor
    · intro h
      by_contra hr
      unfold advance_field_state at h
      rw [if_neg hr] at h
      exact WriteState.noConfusion h
    · intro h
      subst h
      rfl

end PgBinaryCopy
